import Mathlib

/-!
# Verification of `cli_progress` (`src/lib.rs`)

A shallow embedding of the tree data model, the mutation operations
(`CLIModificationElement::{pop, push, make_sub, replace_root}`), the renderer
(`CLIDisplayNode::display`, `CLIDisplayNodeType::display`, `go_back`) and the
terminal-output discipline of `CLIDisplayManager::modify` from
`src/src/lib.rs`, together with proofs of the specification claims.

Terminal output is modelled as a list of emission tokens (`Tok`), one token per
`print!`-ed piece; `Tok.bytes` recovers the exact byte string each emission
writes, so equality of token lists refines byte-for-byte equality of output.

Shared progress cells (`Arc<AtomicU8>`) are modelled by an identifier
(`CellId`); a render pass takes a frozen assignment `cells : CellId → Nat`
of cell values (the `AtomicU8` contents, contractually `≤ 255`).
-/

namespace CliProgress

/-- Identifier standing for one shared `Arc<AtomicU8>` progress cell. -/
abbrev CellId := Nat

/-- `CLIDisplayNodeType` from `src/lib.rs`: `Message(Cow<str>)`,
`SpinningMessage(Cow<str>)`, `ProgressBar(Arc<AtomicU8>)`. -/
inductive CLIDisplayNodeType : Type where
  | Message (s : String)
  | SpinningMessage (s : String)
  | ProgressBar (cell : CellId)
deriving DecidableEq

/-- `CLIDisplayNode` from `src/lib.rs`: a `node_type` and an ordered,
exclusively owned `sub_nodes : Vec<CLIDisplayNode>`. -/
inductive CLIDisplayNode : Type where
  | mk (node_type : CLIDisplayNodeType) (sub_nodes : List CLIDisplayNode)

/-- Field accessor for `node_type`. -/
def CLIDisplayNode.node_type : CLIDisplayNode → CLIDisplayNodeType
  | .mk t _ => t

/-- Field accessor for `sub_nodes`. -/
def CLIDisplayNode.sub_nodes : CLIDisplayNode → List CLIDisplayNode
  | .mk _ s => s

/-- `CLIDisplayNode::new`: a fresh node with no children. -/
def CLIDisplayNode.new (t : CLIDisplayNodeType) : CLIDisplayNode := .mk t []

@[simp] theorem CLIDisplayNode.node_type_mk (t : CLIDisplayNodeType)
    (s : List CLIDisplayNode) : (CLIDisplayNode.mk t s).node_type = t := rfl

@[simp] theorem CLIDisplayNode.sub_nodes_mk (t : CLIDisplayNodeType)
    (s : List CLIDisplayNode) : (CLIDisplayNode.mk t s).sub_nodes = s := rfl

@[simp] theorem CLIDisplayNode.sub_nodes_new (t : CLIDisplayNodeType) :
    (CLIDisplayNode.new t).sub_nodes = [] := rfl

mutual

/-- Number of nodes in a tree; each node occupies exactly one terminal line,
so this is the visible line count of the rendered frame. -/
def CLIDisplayNode.size : CLIDisplayNode → Nat
  | .mk _ subs => 1 + CLIDisplayNode.sizeList subs

/-- Total number of nodes in a forest. -/
def CLIDisplayNode.sizeList : List CLIDisplayNode → Nat
  | [] => 0
  | c :: cs => CLIDisplayNode.size c + CLIDisplayNode.sizeList cs

end

@[simp] theorem CLIDisplayNode.size_mk (t : CLIDisplayNodeType)
    (s : List CLIDisplayNode) :
    (CLIDisplayNode.mk t s).size = 1 + CLIDisplayNode.sizeList s := by
  rw [CLIDisplayNode.size]

@[simp] theorem CLIDisplayNode.sizeList_nil : CLIDisplayNode.sizeList [] = 0 := by
  rw [CLIDisplayNode.sizeList]

@[simp] theorem CLIDisplayNode.sizeList_cons (c : CLIDisplayNode)
    (cs : List CLIDisplayNode) :
    CLIDisplayNode.sizeList (c :: cs) = c.size + CLIDisplayNode.sizeList cs := by
  rw [CLIDisplayNode.sizeList]

theorem CLIDisplayNode.sizeList_append (l₁ l₂ : List CLIDisplayNode) :
    CLIDisplayNode.sizeList (l₁ ++ l₂) =
      CLIDisplayNode.sizeList l₁ + CLIDisplayNode.sizeList l₂ := by
  induction l₁ with
  | nil => simp
  | cons c cs ih => simp [ih]; omega

theorem CLIDisplayNode.size_pos (t : CLIDisplayNode) : 0 < t.size := by
  cases t; simp

theorem mem_of_getLast?_eq {α : Type} {l : List α} {a : α}
    (h : l.getLast? = some a) : a ∈ l := by
  obtain ⟨ys, rfl⟩ := List.getLast?_eq_some_iff.mp h
  simp

theorem sizeOf_getLast?_lt {t : CLIDisplayNode} {l : CLIDisplayNode}
    (h : t.sub_nodes.getLast? = some l) : sizeOf l < sizeOf t := by
  have hmem : l ∈ t.sub_nodes := mem_of_getLast?_eq h
  have h1 : sizeOf l < sizeOf t.sub_nodes := List.sizeOf_lt_of_mem hmem
  cases t with
  | mk ty subs => simp only [CLIDisplayNode.sub_nodes_mk] at h1; simp; omega

/-! ## Mutation operations (`CLIModificationElement`, `src/lib.rs` lines 190-270)

Each operation is modelled as a pure state transformer on the tree held behind
the `RwLock` plus the `additions : isize` counter.  `Option` marks control
paths on which the Rust code would panic (`unwrap` on an empty `Vec`); those
paths are proved unreachable from the public entry points. -/

/-- The descent-and-remove loop of `CLIModificationElement::pop`
(lines 211-217): starting from the root, descend to the last child while that
last child has children, then remove (and `forget`) the final last child.
`none` models the `unwrap` panic on a node with no children. -/
def popGo (t : CLIDisplayNode) : Option CLIDisplayNode :=
  match h : t.sub_nodes.getLast? with
  | none => none
  | some l =>
    if l.sub_nodes.length = 0 then
      some (.mk t.node_type t.sub_nodes.dropLast)
    else
      (popGo l).map fun m => .mk t.node_type (t.sub_nodes.dropLast ++ [m])
termination_by sizeOf t
decreasing_by exact sizeOf_getLast?_lt h

/-- The descent-and-append loop of `CLIModificationElement::push`
(lines 236-242): descend to the last child while that last child has children,
then append the new node as a further child of the node the descent stops at. -/
def pushGo (t : CLIDisplayNode) (x : CLIDisplayNodeType) : Option CLIDisplayNode :=
  match h : t.sub_nodes.getLast? with
  | none => none
  | some l =>
    if l.sub_nodes.length = 0 then
      some (.mk t.node_type (t.sub_nodes ++ [CLIDisplayNode.new x]))
    else
      (pushGo l x).map fun m => .mk t.node_type (t.sub_nodes.dropLast ++ [m])
termination_by sizeOf t
decreasing_by exact sizeOf_getLast?_lt h

/-- The descent-and-append loop of `CLIModificationElement::make_sub`
(lines 254-260): descend to the last child while the *current* node has
children (i.e. all the way to the last-most leaf), then append the new node
as a child of that leaf. -/
def makeSubGo (t : CLIDisplayNode) (x : CLIDisplayNodeType) : CLIDisplayNode :=
  match h : t.sub_nodes.getLast? with
  | none => .mk t.node_type (t.sub_nodes ++ [CLIDisplayNode.new x])
  | some l => .mk t.node_type (t.sub_nodes.dropLast ++ [makeSubGo l x])
termination_by sizeOf t
decreasing_by exact sizeOf_getLast?_lt h

/-- `CLIModificationElement`: the transient mutation handle; `root_node` is the
tree behind the `RwLock`, `additions` the running net line-count delta. -/
structure CLIModificationElement where
  root_node : CLIDisplayNode
  additions : Int

/-- `CLIModificationElement::pop` (lines 198-218): decrement `additions`;
if the root has no children undo the decrement and return (no-op); otherwise
run the descent-and-remove loop. -/
def CLIModificationElement.pop (m : CLIModificationElement) :
    Option CLIModificationElement :=
  let m := { m with additions := m.additions - 1 }
  if m.root_node.sub_nodes.length = 0 then
    some { m with additions := m.additions + 1 }
  else
    (popGo m.root_node).map fun t => { m with root_node := t }

/-- `CLIModificationElement::make_sub` (lines 246-261): increment `additions`
and append a new node as a child of the deepest last-most leaf. -/
def CLIModificationElement.make_sub (m : CLIModificationElement)
    (x : CLIDisplayNodeType) : CLIModificationElement :=
  let m := { m with additions := m.additions + 1 }
  { m with root_node := makeSubGo m.root_node x }

/-- `CLIModificationElement::push` (lines 221-243): increment `additions`;
if the root has no children undo the increment and delegate to `make_sub`;
otherwise run the descent-and-append loop. -/
def CLIModificationElement.push (m : CLIModificationElement)
    (x : CLIDisplayNodeType) : Option CLIModificationElement :=
  let m := { m with additions := m.additions + 1 }
  if m.root_node.sub_nodes.length = 0 then
    some (CLIModificationElement.make_sub { m with additions := m.additions - 1 } x)
  else
    (pushGo m.root_node x).map fun t => { m with root_node := t }

/-- `CLIModificationElement::replace_root` (lines 264-269): overwrite the
root's `node_type`, keeping its children and the `additions` counter. -/
def CLIModificationElement.replace_root (m : CLIModificationElement)
    (x : CLIDisplayNodeType) : CLIModificationElement :=
  { m with root_node := .mk x m.root_node.sub_nodes }

/-- One edit issued through the mutation handle during a `modify` call. -/
inductive MOp : Type where
  | pop
  | push (x : CLIDisplayNodeType)
  | make_sub (x : CLIDisplayNodeType)
  | replace_root (x : CLIDisplayNodeType)

/-- Apply one mutation-handle operation. -/
def applyOp (m : CLIModificationElement) : MOp → Option CLIModificationElement
  | .pop => m.pop
  | .push x => m.push x
  | .make_sub x => some (m.make_sub x)
  | .replace_root x => some (m.replace_root x)

/-- Apply a whole batch of edits, as the callback of one `modify` call does. -/
def applyOps (ops : List MOp) (m : CLIModificationElement) :
    Option CLIModificationElement :=
  ops.foldlM applyOp m

/-! ## Terminal output model

One `Tok` per `print!`/`write!` emission the Rust code performs.  `Tok.bytes`
is the exact byte string of each emission, so token-list equality refines
byte-for-byte output equality. -/

/-- One terminal emission: the `ERASE_LINE` sequence (`ESC[2K` + `\r`), the
`CURSOR_UP` sequence (`ESC[1A`), a newline from `println!`/`writeln!`, or a
plain text fragment. -/
inductive Tok : Type where
  | eraseLine
  | cursorUp
  | newline
  | text (s : String)
deriving DecidableEq

/-- The exact bytes each emission writes (`src/lib.rs` lines 36-39). -/
def Tok.bytes : Tok → String
  | .eraseLine => "\x1b[2K\r"
  | .cursorUp => "\x1b[1A"
  | .newline => "\n"
  | .text s => s

/-- Byte string of a whole emission sequence. -/
def toBytes (l : List Tok) : String := String.join (l.map Tok.bytes)

/-- The four spinner glyphs of the string literal used at lines 336 and 349. -/
def spinnerChars : List Char := ['/', '-', '\\', '|']

/-- The spinner glyph selection `chars().nth(tick_counter % 4).unwrap()` over
the four-glyph literal (lines 336, 349); the index is always in range, so the
`unwrap` cannot fail and the default is never used. -/
def spinnerChar (tick_counter : Nat) : Char :=
  spinnerChars.getD (tick_counter % 4) '/'

/-- Rust `clamp(lo, hi)` on unsigned integers. -/
def rustClamp (x lo hi : Nat) : Nat :=
  if x < lo then lo else if hi < x then hi else x

/-- The progress-bar fill width computed at line 340:
`(progress.load(Relaxed) / 5).clamp(0, 20)`. -/
def progressFill (cell : Nat) : Nat := rustClamp (cell / 5) 0 20

/-- `CLIDisplayNodeType::display` (lines 332-359): the emissions for one
node's content, given the frozen cell values and tick counter. -/
def CLIDisplayNodeType.displayToks (nt : CLIDisplayNodeType)
    (cells : CellId → Nat) (tick_counter : Nat) : List Tok :=
  match nt with
  | .Message s => [.text s, .newline]
  | .SpinningMessage s =>
      [.text s, .text " ", .text (String.singleton (spinnerChar tick_counter)),
       .newline]
  | .ProgressBar cell =>
      let progress := progressFill (cells cell)
      [.text "["]
      ++ List.replicate progress (.text "#")
      ++ (if progress ≠ 20
            then [.text (String.singleton (spinnerChar tick_counter))] else [])
      ++ List.replicate (19 - progress) (.text " ")
      ++ [.text "]", .newline]

/-- The "last branch" glyph `"\u{2514}\u{2574}"` printed at line 293. -/
def lastGlyph : String := "└╴"

/-- The "mid branch" glyph `"\u{251C}\u{2574}"` printed at line 295. -/
def midGlyph : String := "├╴"

mutual

/-- `CLIDisplayNode::display` (lines 285-304): erase the current line; at
depth `d > 0` print `d - 1` two-space indents and the branch glyph chosen by
the `last` flag; print the content; recurse into the children passing
`index + 1 == sub_nodes.len()` as each child's `last` flag. -/
def CLIDisplayNode.display : CLIDisplayNode → Nat → (CellId → Nat) → Nat →
    Bool → List Tok
  | .mk ty subs, depth, cells, tick_counter, last =>
    [Tok.eraseLine]
    ++ (if depth ≠ 0 then
          List.replicate (depth - 1) (Tok.text "  ")
          ++ [Tok.text (if last then lastGlyph else midGlyph)]
        else [])
    ++ ty.displayToks cells tick_counter
    ++ CLIDisplayNode.displayList subs subs.length 0 (depth + 1) cells
        tick_counter

/-- The enumerated-children loop at lines 301-303: `len` is the parent's
`sub_nodes.len()`, `index` the position of the head of the remaining list. -/
def CLIDisplayNode.displayList : List CLIDisplayNode → Nat → Nat → Nat →
    (CellId → Nat) → Nat → List Tok
  | [], _, _, _, _, _ => []
  | c :: cs, len, index, depth, cells, tick_counter =>
    CLIDisplayNode.display c depth cells tick_counter (index + 1 == len)
    ++ CLIDisplayNode.displayList cs len (index + 1) depth cells tick_counter

end

mutual

/-- `CLIDisplayNode::go_back` (lines 306-312): post-order, one `CURSOR_UP`
per node. -/
def CLIDisplayNode.go_back : CLIDisplayNode → List Tok
  | .mk _ subs => CLIDisplayNode.goBackList subs ++ [Tok.cursorUp]

/-- The children loop of `go_back`. -/
def CLIDisplayNode.goBackList : List CLIDisplayNode → List Tok
  | [] => []
  | c :: cs => c.go_back ++ CLIDisplayNode.goBackList cs

end

/-- One rendered line: the depth, the `last` flag the renderer threads to the
node, and the node itself. -/
structure RenderLine : Type where
  depth : Nat
  last : Bool
  node : CLIDisplayNode

mutual

/-- The lines of a render pass in output order, each with the depth and
`last` flag `CLIDisplayNode::display` gives it. -/
def displayLines : CLIDisplayNode → Nat → Bool → List RenderLine
  | .mk ty subs, depth, last =>
    ⟨depth, last, .mk ty subs⟩ ::
      displayLinesList subs subs.length 0 (depth + 1)

/-- Line list of an enumerated child forest. -/
def displayLinesList : List CLIDisplayNode → Nat → Nat → Nat → List RenderLine
  | [], _, _, _ => []
  | c :: cs, len, index, depth =>
    displayLines c depth (index + 1 == len)
    ++ displayLinesList cs len (index + 1) depth

end

/-- The emissions of one rendered line: erase, indents, branch glyph (at
depth > 0), content. -/
def lineToks (cells : CellId → Nat) (tick_counter : Nat) (e : RenderLine) :
    List Tok :=
  [Tok.eraseLine]
  ++ (if e.depth ≠ 0 then
        List.replicate (e.depth - 1) (Tok.text "  ")
        ++ [Tok.text (if e.last then lastGlyph else midGlyph)]
      else [])
  ++ e.node.node_type.displayToks cells tick_counter

/-- The progress cell a content value references, if any. -/
def CLIDisplayNodeType.cellRefs : CLIDisplayNodeType → List CellId
  | .ProgressBar c => [c]
  | _ => []

mutual

/-- The progress-cell ids a tree references (each `ProgressBar` node holds a
non-owning reference to one cell). -/
def cellIds : CLIDisplayNode → List CellId
  | .mk ty subs => ty.cellRefs ++ cellIdsList subs

/-- Cell ids of a forest. -/
def cellIdsList : List CLIDisplayNode → List CellId
  | [] => []
  | c :: cs => cellIds c ++ cellIdsList cs

end

/-! ## `CLIDisplayManager::modify` output (lines 139-177) -/

/-- Line 149: `modification_element.additions.neg().max(0)` — the number of
stale lines to clear after the synchronous repaint. -/
def removedLines (additions : Int) : Int := max (-additions) 0

/-- The stale-line compensation emitted by `modify` after the repaint
(lines 159-169): `for i in 1..=removed_lines` erase the current line and,
except after the last erasure, move to the next line with `println!("")`;
then `for _ in 1..removed_lines` move the cursor back up.  A nonpositive
`removed_lines` yields both loops empty.  The loop index comparison
`i != removed_lines` is taken in `Nat` against `removed_lines.toNat`, which
agrees with the `isize` comparison whenever the first loop runs at all. -/
def modifyCompensation (removed_lines : Int) : List Tok :=
  ((List.range' 1 removed_lines.toNat).flatMap fun i =>
    [Tok.eraseLine]
    ++ (if i = removed_lines.toNat then [] else [Tok.newline]))
  ++ List.replicate (removed_lines - 1).toNat Tok.cursorUp

/-- Terminal region state: the cursor's row (counted from the region's first
line) and the rows whose line has been erased, in erasure order. -/
structure TermState : Type where
  row : Nat
  erased : List Nat
deriving DecidableEq

/-- Effect of one emission on the terminal region: `ERASE_LINE` clears the
cursor's row, a newline moves down one row, `CURSOR_UP` moves up one row and
plain text stays on its row. -/
def stepTok (s : TermState) : Tok → TermState
  | .eraseLine => { s with erased := s.erased ++ [s.row] }
  | .newline => { s with row := s.row + 1 }
  | .cursorUp => { s with row := s.row - 1 }
  | .text _ => s

/-- Run an emission sequence over the terminal region. -/
def runToks (s : TermState) (l : List Tok) : TermState := l.foldl stepTok s

/-! ## Lock acquisition model (claim C3)

`Mutex::lock` / `RwLock::read` / `RwLock::write` / `Condvar::wait` return
`Result<Guard, PoisonError<Guard>>`: on a poisoned lock the guard is still
produced, wrapped in `Err`.  `.expect(..)` panics on `Err`; binding the bare
`Result` does not.  `none` models a panic. -/

/-- Result of acquiring a lock whose poison flag is `poisoned` — the guard is
obtained either way, tagged by whether the lock was poisoned. -/
inductive LockResult : Type where
  | ok
  | poisonErr
deriving DecidableEq

/-- Acquire a lock: `Err(PoisonError(guard))` iff the lock is poisoned. -/
def lockAcquire (poisoned : Bool) : LockResult :=
  if poisoned then .poisonErr else .ok

/-- `.expect(..)` on a lock result: panic (`none`) on a poison error. -/
def lockExpect : LockResult → Option Unit
  | .ok => some ()
  | .poisonErr => none

/-- The lock acquisition of the render thread's startup
(lines 99-101): `mutex.lock().expect(..)`. -/
def renderThreadStartLock (mutexPoisoned : Bool) : Option Unit :=
  lockExpect (lockAcquire mutexPoisoned)

/-- The lock interactions of one render-loop iteration (lines 110-130):
`root.read().expect(..)` for the frame, then
`cv.wait_timeout(..).expect(..)` / `cv.wait(..).expect(..)` on the
condition variable (whose error is the scheduling mutex's poison). -/
def renderLoopIterLocks (rwPoisoned cvPoisoned : Bool) : Option Unit := do
  let _ ← lockExpect (lockAcquire rwPoisoned)
  let _ ← lockExpect (lockAcquire cvPoisoned)
  pure ()

/-- The lock acquisition every mutation-handle operation performs
(lines 201-204, 224-227, 249-252, 265-267): `root_node.write().expect(..)`. -/
def mutationOpLock (rwPoisoned : Bool) : Option Unit :=
  lockExpect (lockAcquire rwPoisoned)

/-- The lock interactions of the `modify` entry point: line 140 binds
`self.mutex.lock()` **without** `.expect` (the `Result` itself is held as the
guard), then lines 153-156 run `self.root.read().expect(..)`. -/
def modifyLocks (mutexPoisoned rwPoisoned : Bool) : Option Unit := do
  let _guard := lockAcquire mutexPoisoned
  let _ ← lockExpect (lockAcquire rwPoisoned)
  pure ()

/-! ## Destructor output model (claim C10)

`impl Drop for CLIDisplayNode` (lines 315-319) prints one `println!("")`;
Rust then drops the `sub_nodes` vector, recursively.  `mem::forget` runs no
destructor at all. -/

mutual

/-- The emissions produced by `drop`ping a node: its own `Drop::drop`
newline, then the recursive drop of its children. -/
def dropTrace : CLIDisplayNode → List Tok
  | .mk _ subs => [Tok.newline] ++ dropTraceList subs

/-- Emissions of dropping a forest, in order. -/
def dropTraceList : List CLIDisplayNode → List Tok
  | [] => []
  | c :: cs => dropTrace c ++ dropTraceList cs

end

/-- `mem::forget` (line 217): the value is leaked, no destructor runs, and
nothing is printed. -/
def forgetTrace (_ : CLIDisplayNode) : List Tok := []

/-- `popGo` instrumented with the terminal output it produces: the removed
node is passed to `forget`, never dropped, so the only candidate emission
site contributes `forgetTrace`. -/
def popGoTr (t : CLIDisplayNode) : Option (CLIDisplayNode × List Tok) :=
  match h : t.sub_nodes.getLast? with
  | none => none
  | some l =>
    if l.sub_nodes.length = 0 then
      some (.mk t.node_type t.sub_nodes.dropLast, forgetTrace l)
    else
      (popGoTr l).map fun p => (.mk t.node_type (t.sub_nodes.dropLast ++ [p.1]), p.2)
termination_by sizeOf t
decreasing_by exact sizeOf_getLast?_lt h

/-! ## Path-addressed view of the tree

A path is a list of child indices from the root.  These definitions give an
operation-independent way to say *where* `push` and `make_sub` insert. -/

/-- The node a path addresses, if the path is valid. -/
def nodeAt : CLIDisplayNode → List Nat → Option CLIDisplayNode
  | t, [] => some t
  | t, i :: p => match t.sub_nodes.get? i with
    | none => none
    | some c => nodeAt c p

/-- Append a fresh node `CLIDisplayNode.new x` as the new last child of the
node the path addresses. -/
def insertChildAt : CLIDisplayNode → List Nat → CLIDisplayNodeType →
    Option CLIDisplayNode
  | .mk ty subs, [], x => some (.mk ty (subs ++ [CLIDisplayNode.new x]))
  | .mk ty subs, i :: p, x =>
    match subs.get? i with
    | none => none
    | some c =>
      (insertChildAt c p x).map fun m => .mk ty (subs.set i m)

/-- The path `push`'s descent follows: starting at the root, descend to the
last child as long as that last child itself has children; stops at the
first node whose last child is a leaf (or at a childless root). -/
def pushPath (t : CLIDisplayNode) : List Nat :=
  match h : t.sub_nodes.getLast? with
  | none => []
  | some l =>
    if l.sub_nodes.length = 0 then []
    else (t.sub_nodes.length - 1) :: pushPath l
termination_by sizeOf t
decreasing_by exact sizeOf_getLast?_lt h

/-- The path `make_sub`'s descent follows: descend to the last child as long
as the current node has children; always ends at the last-most leaf. -/
def lastLeafPath (t : CLIDisplayNode) : List Nat :=
  match h : t.sub_nodes.getLast? with
  | none => []
  | some l => (t.sub_nodes.length - 1) :: lastLeafPath l
termination_by sizeOf t
decreasing_by exact sizeOf_getLast?_lt h

/-- The claims C5/C6 traversal phrased as the spec words it ("identical
traversal rule" to append, then "appends as a new child of the deepest node
found by that traversal").  Modelled from the spec for comparison with
`make_sub`; `push`'s own descent is what realises it. -/
def descendAtPushStop (t : CLIDisplayNode) (x : CLIDisplayNodeType) :
    Option CLIDisplayNode :=
  insertChildAt t (pushPath t) x

/-! ## Induction principle and unfolding lemmas -/

/-- Structural induction over the nested tree type: to prove `P` for every
node it suffices to prove it for `mk ty subs` assuming it for every child. -/
theorem tree_ind_mem (P : CLIDisplayNode → Prop)
    (h : ∀ ty subs, (∀ c ∈ subs, P c) → P (.mk ty subs)) : ∀ t, P t :=
  fun t =>
    @CLIDisplayNode.rec P (fun l => ∀ c ∈ l, P c)
      h
      (fun c hc => absurd hc (List.not_mem_nil c))
      (fun e es he hes c hc => by
        rcases List.mem_cons.mp hc with rfl | hm
        · exact he
        · exact hes c hm)
      t

theorem makeSubGo_none {t : CLIDisplayNode} {x : CLIDisplayNodeType}
    (h : t.sub_nodes.getLast? = none) :
    makeSubGo t x = .mk t.node_type (t.sub_nodes ++ [CLIDisplayNode.new x]) := by
  rw [makeSubGo.eq_def]
  split <;> simp_all

theorem makeSubGo_some {t l : CLIDisplayNode} {x : CLIDisplayNodeType}
    (h : t.sub_nodes.getLast? = some l) :
    makeSubGo t x = .mk t.node_type (t.sub_nodes.dropLast ++ [makeSubGo l x]) := by
  rw [makeSubGo.eq_def]
  split <;> simp_all

theorem popGo_none {t : CLIDisplayNode} (h : t.sub_nodes.getLast? = none) :
    popGo t = none := by
  rw [popGo.eq_def]
  split <;> simp_all

theorem popGo_some_leaf {t l : CLIDisplayNode}
    (h : t.sub_nodes.getLast? = some l) (hl : l.sub_nodes.length = 0) :
    popGo t = some (.mk t.node_type t.sub_nodes.dropLast) := by
  rw [popGo.eq_def]
  split
  · simp_all
  · rename_i l2 h2
    rw [h] at h2
    cases h2
    simp [hl]

theorem popGo_some_deep {t l : CLIDisplayNode}
    (h : t.sub_nodes.getLast? = some l) (hl : l.sub_nodes.length ≠ 0) :
    popGo t =
      (popGo l).map fun m => .mk t.node_type (t.sub_nodes.dropLast ++ [m]) := by
  rw [popGo.eq_def]
  split
  · simp_all
  · rename_i l2 h2
    rw [h] at h2
    cases h2
    simp [hl]

theorem pushGo_none {t : CLIDisplayNode} {x : CLIDisplayNodeType}
    (h : t.sub_nodes.getLast? = none) : pushGo t x = none := by
  rw [pushGo.eq_def]
  split <;> simp_all

theorem pushGo_some_leaf {t l : CLIDisplayNode} {x : CLIDisplayNodeType}
    (h : t.sub_nodes.getLast? = some l) (hl : l.sub_nodes.length = 0) :
    pushGo t x = some (.mk t.node_type (t.sub_nodes ++ [CLIDisplayNode.new x])) := by
  rw [pushGo.eq_def]
  split
  · simp_all
  · rename_i l2 h2
    rw [h] at h2
    cases h2
    simp [hl]

theorem pushGo_some_deep {t l : CLIDisplayNode} {x : CLIDisplayNodeType}
    (h : t.sub_nodes.getLast? = some l) (hl : l.sub_nodes.length ≠ 0) :
    pushGo t x =
      (pushGo l x).map fun m => .mk t.node_type (t.sub_nodes.dropLast ++ [m]) := by
  rw [pushGo.eq_def]
  split
  · simp_all
  · rename_i l2 h2
    rw [h] at h2
    cases h2
    simp [hl]

theorem pushPath_none {t : CLIDisplayNode} (h : t.sub_nodes.getLast? = none) :
    pushPath t = [] := by
  rw [pushPath.eq_def]
  split <;> simp_all

theorem pushPath_some_leaf {t l : CLIDisplayNode}
    (h : t.sub_nodes.getLast? = some l) (hl : l.sub_nodes.length = 0) :
    pushPath t = [] := by
  rw [pushPath.eq_def]
  split
  · rfl
  · rename_i l2 h2
    rw [h] at h2
    cases h2
    simp [hl]

theorem pushPath_some_deep {t l : CLIDisplayNode}
    (h : t.sub_nodes.getLast? = some l) (hl : l.sub_nodes.length ≠ 0) :
    pushPath t = (t.sub_nodes.length - 1) :: pushPath l := by
  rw [pushPath.eq_def]
  split
  · simp_all
  · rename_i l2 h2
    rw [h] at h2
    cases h2
    simp [hl]

theorem lastLeafPath_none {t : CLIDisplayNode} (h : t.sub_nodes.getLast? = none) :
    lastLeafPath t = [] := by
  rw [lastLeafPath.eq_def]
  split <;> simp_all

theorem lastLeafPath_some {t l : CLIDisplayNode}
    (h : t.sub_nodes.getLast? = some l) :
    lastLeafPath t = (t.sub_nodes.length - 1) :: lastLeafPath l := by
  rw [lastLeafPath.eq_def]
  split
  · simp_all
  · rename_i l2 h2
    rw [h] at h2
    cases h2
    rfl

theorem popGoTr_none {t : CLIDisplayNode} (h : t.sub_nodes.getLast? = none) :
    popGoTr t = none := by
  rw [popGoTr.eq_def]
  split <;> simp_all

theorem popGoTr_some_leaf {t l : CLIDisplayNode}
    (h : t.sub_nodes.getLast? = some l) (hl : l.sub_nodes.length = 0) :
    popGoTr t = some (.mk t.node_type t.sub_nodes.dropLast, forgetTrace l) := by
  rw [popGoTr.eq_def]
  split
  · simp_all
  · rename_i l2 h2
    rw [h] at h2
    cases h2
    simp [hl]

theorem popGoTr_some_deep {t l : CLIDisplayNode}
    (h : t.sub_nodes.getLast? = some l) (hl : l.sub_nodes.length ≠ 0) :
    popGoTr t = (popGoTr l).map
      fun p => (.mk t.node_type (t.sub_nodes.dropLast ++ [p.1]), p.2) := by
  rw [popGoTr.eq_def]
  split
  · simp_all
  · rename_i l2 h2
    rw [h] at h2
    cases h2
    simp [hl]

/-! ## Structural lemmas about the mutation operations -/

theorem set_concat_length {α : Type} (init : List α) (a m : α) :
    (init ++ [a]).set init.length m = init ++ [m] := by
  induction init with
  | nil => rfl
  | cons b bs ih => simp [List.set, ih]

theorem get?_concat_len {α : Type} (init : List α) (a : α) :
    (init ++ [a]).get? init.length = some a := by
  induction init with
  | nil => rfl
  | cons b bs ih => simpa using ih

theorem makeSubGo_sub_nodes_ne_nil (t : CLIDisplayNode) (x : CLIDisplayNodeType) :
    (makeSubGo t x).sub_nodes ≠ [] := by
  rcases h : t.sub_nodes.getLast? with _ | l
  · rw [makeSubGo_none h]; simp
  · rw [makeSubGo_some h]; simp

/-- `pop` undoes `make_sub`: the descent-and-remove loop applied right after
the descent-and-append loop of `make_sub` removes exactly the node
`make_sub` inserted. -/
theorem popGo_makeSubGo : ∀ t : CLIDisplayNode, ∀ x : CLIDisplayNodeType,
    popGo (makeSubGo t x) = some t := by
  apply tree_ind_mem (fun t => ∀ x, popGo (makeSubGo t x) = some t)
  intro ty subs ih x
  rcases h : (CLIDisplayNode.mk ty subs).sub_nodes.getLast? with _ | l
  · rw [makeSubGo_none h]
    simp only [CLIDisplayNode.sub_nodes_mk] at h
    have hsubs : subs = [] := List.getLast?_eq_none_iff.mp h
    subst hsubs
    rw [popGo_some_leaf (l := CLIDisplayNode.new x) (by simp) (by simp)]
    simp [CLIDisplayNode.new]
  · rw [makeSubGo_some h]
    simp only [CLIDisplayNode.node_type_mk, CLIDisplayNode.sub_nodes_mk] at h ⊢
    have hmem : l ∈ subs := mem_of_getLast?_eq h
    have hlast : (CLIDisplayNode.mk ty (subs.dropLast ++ [makeSubGo l x])).sub_nodes.getLast?
        = some (makeSubGo l x) := by simp
    have hne : (makeSubGo l x).sub_nodes.length ≠ 0 := by
      simpa using makeSubGo_sub_nodes_ne_nil l x
    rw [popGo_some_deep hlast hne, ih l hmem x]
    simp [List.dropLast_append_getLast? l h]

/-- `make_sub` realises the path-addressed insertion at `lastLeafPath` and
adds exactly one node. -/
theorem makeSubGo_spec : ∀ t : CLIDisplayNode, ∀ x : CLIDisplayNodeType,
    insertChildAt t (lastLeafPath t) x = some (makeSubGo t x)
    ∧ (makeSubGo t x).size = t.size + 1 := by
  apply tree_ind_mem (fun t => ∀ x,
    insertChildAt t (lastLeafPath t) x = some (makeSubGo t x)
    ∧ (makeSubGo t x).size = t.size + 1)
  intro ty subs ih x
  rcases h : (CLIDisplayNode.mk ty subs).sub_nodes.getLast? with _ | l
  · rw [makeSubGo_none h, lastLeafPath_none h]
    simp only [CLIDisplayNode.sub_nodes_mk] at h
    have hsubs : subs = [] := List.getLast?_eq_none_iff.mp h
    subst hsubs
    constructor
    · rfl
    · simp [CLIDisplayNode.new]
  · rw [makeSubGo_some h, lastLeafPath_some h]
    simp only [CLIDisplayNode.node_type_mk, CLIDisplayNode.sub_nodes_mk] at h ⊢
    have hmem : l ∈ subs := mem_of_getLast?_eq h
    have hdec : subs.dropLast ++ [l] = subs := List.dropLast_append_getLast? l h
    have hlen : subs.dropLast.length = subs.length - 1 := List.length_dropLast subs
    have hget : subs.get? (subs.length - 1) = some l := by
      rw [← hdec, List.length_append, List.length_dropLast]
      simpa [List.length_dropLast] using get?_concat_len subs.dropLast l
    constructor
    · show insertChildAt (CLIDisplayNode.mk ty subs)
        ((subs.length - 1) :: lastLeafPath l) x = _
      rw [insertChildAt]
      simp only [CLIDisplayNode.node_type_mk, CLIDisplayNode.sub_nodes_mk, hget]
      rw [(ih l hmem x).1]
      have hset : subs.set (subs.length - 1) (makeSubGo l x)
          = subs.dropLast ++ [makeSubGo l x] := by
        conv => lhs; rw [← hdec]
        have hlen2 : (subs.dropLast ++ [l]).length - 1 = subs.dropLast.length := by
          simp
        rw [hlen2]
        exact set_concat_length subs.dropLast l (makeSubGo l x)
      simp [hset]
    · have hs := (ih l hmem x).2
      have : CLIDisplayNode.sizeList subs
          = CLIDisplayNode.sizeList subs.dropLast + l.size := by
        conv => lhs; rw [← hdec]
        rw [CLIDisplayNode.sizeList_append]; simp
      simp [CLIDisplayNode.sizeList_append, hs, this]
      omega

/-- The `lastLeafPath` descent always ends at a leaf: `make_sub` appends its
node as a child of a node that had no children. -/
theorem nodeAt_lastLeafPath : ∀ t : CLIDisplayNode,
    ∃ d : CLIDisplayNode, nodeAt t (lastLeafPath t) = some d ∧ d.sub_nodes = [] := by
  apply tree_ind_mem (fun t =>
    ∃ d, nodeAt t (lastLeafPath t) = some d ∧ d.sub_nodes = [])
  intro ty subs ih
  rcases h : (CLIDisplayNode.mk ty subs).sub_nodes.getLast? with _ | l
  · rw [lastLeafPath_none h]
    simp only [CLIDisplayNode.sub_nodes_mk] at h
    have hsubs : subs = [] := List.getLast?_eq_none_iff.mp h
    subst hsubs
    exact ⟨.mk ty [], rfl, rfl⟩
  · rw [lastLeafPath_some h]
    simp only [CLIDisplayNode.sub_nodes_mk] at h
    have hmem : l ∈ subs := mem_of_getLast?_eq h
    have hdec : subs.dropLast ++ [l] = subs := List.dropLast_append_getLast? l h
    have hget : subs.get? (subs.length - 1) = some l := by
      rw [← hdec, List.length_append, List.length_dropLast]
      simpa [List.length_dropLast] using get?_concat_len subs.dropLast l
    obtain ⟨d, hd, hleaf⟩ := ih l hmem
    refine ⟨d, ?_, hleaf⟩
    rw [nodeAt]
    simp only [CLIDisplayNode.sub_nodes_mk, hget]
    exact hd

/-- The descent-and-append loop of `push`, run on a node with children, never
panics, inserts at `pushPath`, adds exactly one node, keeps the root's
children nonempty — and `pop` run immediately afterwards removes exactly the
inserted node. -/
theorem pushGo_spec : ∀ t : CLIDisplayNode, t.sub_nodes ≠ [] →
    ∀ x : CLIDisplayNodeType, ∃ u : CLIDisplayNode,
      pushGo t x = some u
      ∧ popGo u = some t
      ∧ insertChildAt t (pushPath t) x = some u
      ∧ u.size = t.size + 1
      ∧ u.sub_nodes ≠ [] := by
  apply tree_ind_mem (fun t => t.sub_nodes ≠ [] →
    ∀ x, ∃ u, pushGo t x = some u ∧ popGo u = some t
      ∧ insertChildAt t (pushPath t) x = some u
      ∧ u.size = t.size + 1 ∧ u.sub_nodes ≠ [])
  intro ty subs ih hne x
  simp only [CLIDisplayNode.sub_nodes_mk] at hne
  rcases h : (CLIDisplayNode.mk ty subs).sub_nodes.getLast? with _ | l
  · simp only [CLIDisplayNode.sub_nodes_mk, List.getLast?_eq_none_iff] at h
    exact absurd h hne
  · simp only [CLIDisplayNode.sub_nodes_mk] at h
    have hmem : l ∈ subs := mem_of_getLast?_eq h
    have hdec : subs.dropLast ++ [l] = subs := List.dropLast_append_getLast? l h
    have hget : subs.get? (subs.length - 1) = some l := by
      rw [← hdec, List.length_append, List.length_dropLast]
      simpa [List.length_dropLast] using get?_concat_len subs.dropLast l
    by_cases hl : l.sub_nodes.length = 0
    · -- the last child is a leaf: append here
      refine ⟨.mk ty (subs ++ [CLIDisplayNode.new x]), ?_, ?_, ?_, ?_, by simp⟩
      · rw [pushGo_some_leaf (l := l) (by simpa using h) hl]
        rfl
      · rw [popGo_some_leaf (l := CLIDisplayNode.new x) (by simp) (by simp)]
        simp
      · rw [pushPath_some_leaf (l := l) (by simpa using h) hl, insertChildAt]
      · simp [CLIDisplayNode.sizeList_append, CLIDisplayNode.new]
        omega
    · -- the last child has children: descend into it
      have hlne : l.sub_nodes ≠ [] := by
        intro hc; exact hl (by simp [hc])
      obtain ⟨u, hpush, hpop, hins, hsz, hune⟩ := ih l hmem hlne x
      refine ⟨.mk ty (subs.dropLast ++ [u]), ?_, ?_, ?_, ?_, by simp⟩
      · rw [pushGo_some_deep (l := l) (by simpa using h) hl, hpush]
        rfl
      · have hune' : u.sub_nodes.length ≠ 0 := by simpa using hune
        rw [popGo_some_deep (l := u) (by simp) hune', hpop]
        simp [hdec]
      · rw [pushPath_some_deep (l := l) (by simpa using h) hl, insertChildAt]
        simp only [CLIDisplayNode.node_type_mk, CLIDisplayNode.sub_nodes_mk, hget, hins]
        have hset : subs.set (subs.length - 1) u = subs.dropLast ++ [u] := by
          conv => lhs; rw [← hdec]
          have hlen2 : (subs.dropLast ++ [l]).length - 1 = subs.dropLast.length := by
            simp
          rw [hlen2]
          exact set_concat_length subs.dropLast l u
        simp [hset]
      · have hsplit : CLIDisplayNode.sizeList subs
            = CLIDisplayNode.sizeList subs.dropLast + l.size := by
          conv => lhs; rw [← hdec]
          rw [CLIDisplayNode.sizeList_append]; simp
        simp [CLIDisplayNode.sizeList_append, hsplit, hsz]
        omega

/-- The descent-and-remove loop removes exactly one node. -/
theorem popGo_size : ∀ t : CLIDisplayNode, ∀ u : CLIDisplayNode,
    popGo t = some u → u.size + 1 = t.size := by
  apply tree_ind_mem (fun t => ∀ u, popGo t = some u → u.size + 1 = t.size)
  intro ty subs ih u hpop
  rcases h : (CLIDisplayNode.mk ty subs).sub_nodes.getLast? with _ | l
  · rw [popGo_none h] at hpop; cases hpop
  · have h' : subs.getLast? = some l := by simpa using h
    have hmem : l ∈ subs := mem_of_getLast?_eq h'
    have hdec : subs.dropLast ++ [l] = subs := List.dropLast_append_getLast? l h'
    have hsplit : CLIDisplayNode.sizeList subs
        = CLIDisplayNode.sizeList subs.dropLast + l.size := by
      conv => lhs; rw [← hdec]
      rw [CLIDisplayNode.sizeList_append]; simp
    by_cases hl : l.sub_nodes.length = 0
    · rw [popGo_some_leaf h hl] at hpop
      cases hpop
      have : l.size = 1 := by
        cases l with
        | mk lty lsubs =>
          simp only [CLIDisplayNode.sub_nodes_mk, List.length_eq_zero] at hl
          subst hl
          simp
      simp [hsplit, this]
      omega
    · rw [popGo_some_deep h hl] at hpop
      rcases hm : popGo l with _ | m
      · rw [hm] at hpop; cases hpop
      · rw [hm] at hpop
        simp only [Option.map_some'] at hpop
        cases hpop
        have := ih l hmem m hm
        simp [CLIDisplayNode.sizeList_append, hsplit]
        omega

/-- `pop` is a left inverse of `make_sub`, tree and counter alike. -/
theorem pop_make_sub (m : CLIModificationElement) (x : CLIDisplayNodeType) :
    (m.make_sub x).pop = some m := by
  have hne : (makeSubGo m.root_node x).sub_nodes ≠ [] :=
    makeSubGo_sub_nodes_ne_nil m.root_node x
  simp only [CLIModificationElement.make_sub, CLIModificationElement.pop]
  rw [if_neg (by simpa using hne)]
  rw [popGo_makeSubGo m.root_node x]
  simp only [Option.map_some']
  congr 1
  cases m with
  | mk r a => simp

/-- `push` never fails, inserts exactly at `pushPath`, adds one node and one
to the counter — and `pop` run immediately afterwards is its left inverse. -/
theorem push_spec (m : CLIModificationElement) (x : CLIDisplayNodeType) :
    ∃ m' : CLIModificationElement, m.push x = some m'
      ∧ insertChildAt m.root_node (pushPath m.root_node) x = some m'.root_node
      ∧ m'.root_node.size = m.root_node.size + 1
      ∧ m'.additions = m.additions + 1
      ∧ m'.pop = some m := by
  by_cases hroot : m.root_node.sub_nodes.length = 0
  · have hnil : m.root_node.sub_nodes = [] := by simpa using hroot
    have hgl : m.root_node.sub_nodes.getLast? = none := by
      rw [hnil]; rfl
    refine ⟨CLIModificationElement.make_sub m x, ?_, ?_, ?_, ?_, ?_⟩
    · simp only [CLIModificationElement.push]
      rw [if_pos (by simpa using hroot)]
      cases m with
      | mk r a => simp [CLIModificationElement.make_sub]
    · simp only [CLIModificationElement.make_sub]
      rw [pushPath_none hgl, makeSubGo_none hgl, insertChildAt.eq_def]
      cases hr : m.root_node with
      | mk ty subs => simp
    · simp only [CLIModificationElement.make_sub]
      exact (makeSubGo_spec m.root_node x).2
    · simp [CLIModificationElement.make_sub]
    · exact pop_make_sub m x
  · have hne : m.root_node.sub_nodes ≠ [] := by
      intro hc; exact hroot (by simp [hc])
    obtain ⟨u, hpush, hpop, hins, hsz, hune⟩ := pushGo_spec m.root_node hne x
    refine ⟨{ m with root_node := u, additions := m.additions + 1 }, ?_, ?_, ?_, rfl, ?_⟩
    · simp only [CLIModificationElement.push]
      rw [if_neg (by simpa using hroot)]
      rw [hpush]
      rfl
    · simpa using hins
    · simpa using hsz
    · simp only [CLIModificationElement.pop]
      rw [if_neg (by simpa using hune)]
      rw [hpop]
      simp only [Option.map_some']
      congr 1
      cases m with
      | mk r a => simp

/-- `pop` on a tree whose root has no children is a complete no-op: same
tree, same `additions` counter. -/
theorem pop_noop (m : CLIModificationElement)
    (h : m.root_node.sub_nodes = []) : m.pop = some m := by
  simp only [CLIModificationElement.pop]
  rw [if_pos (by simp [h])]
  congr 1
  cases m with
  | mk r a => simp

/-- `pop` on a root with children succeeds exactly when the descent-and-remove
loop does, removing one node and decrementing the counter. -/
theorem pop_nonempty_spec (m m' : CLIModificationElement)
    (hne : m.root_node.sub_nodes ≠ []) (h : m.pop = some m') :
    m'.root_node.size + 1 = m.root_node.size
    ∧ m'.additions = m.additions - 1 := by
  simp only [CLIModificationElement.pop] at h
  rw [if_neg (by simpa using hne)] at h
  rcases hp : popGo m.root_node with _ | t
  · rw [hp] at h; cases h
  · rw [hp] at h
    simp only [Option.map_some'] at h
    cases h
    exact ⟨popGo_size m.root_node t hp, rfl⟩

/-- Any single successful handle operation changes `additions` by exactly the
change in node (= visible line) count it makes to the tree. -/
theorem applyOp_delta (m m' : CLIModificationElement) (op : MOp)
    (h : applyOp m op = some m') :
    m'.additions - m.additions
      = (m'.root_node.size : Int) - (m.root_node.size : Int) := by
  cases op with
  | pop =>
    simp only [applyOp] at h
    by_cases hroot : m.root_node.sub_nodes = []
    · rw [pop_noop m hroot] at h
      cases h
      simp
    · obtain ⟨hsz, ha⟩ := pop_nonempty_spec m m' hroot h
      rw [ha]
      omega
  | push x =>
    simp only [applyOp] at h
    obtain ⟨u, hpush, _, hsz, ha, _⟩ := push_spec m x
    rw [hpush] at h
    cases h
    rw [ha, hsz]
    push_cast
    omega
  | make_sub x =>
    simp only [applyOp] at h
    cases h
    have hsz := (makeSubGo_spec m.root_node x).2
    simp only [CLIModificationElement.make_sub]
    rw [hsz]
    push_cast
    omega
  | replace_root x =>
    simp only [applyOp] at h
    cases h
    simp only [CLIModificationElement.replace_root]
    cases hr : m.root_node with
    | mk ty subs => simp

/-- Over a whole mutation batch, the final `additions` counter (started at 0
by `modify`) equals the net change in visible line count. -/
theorem applyOps_delta : ∀ (ops : List MOp) (m m' : CLIModificationElement),
    applyOps ops m = some m' →
    m'.additions - m.additions
      = (m'.root_node.size : Int) - (m.root_node.size : Int) := by
  intro ops
  induction ops with
  | nil =>
    intro m m' h
    simp only [applyOps, List.foldlM] at h
    cases h
    simp
  | cons op ops ih =>
    intro m m' h
    simp only [applyOps, List.foldlM_cons] at h
    rcases h1 : applyOp m op with _ | m1
    · rw [h1] at h; cases h
    · rw [h1] at h
      have d1 := applyOp_delta m m1 op h1
      have d2 := ih m1 m' h
      omega

/-! ## Behaviour of the stale-line compensation in `modify` -/

theorem runToks_append (s : TermState) (l₁ l₂ : List Tok) :
    runToks s (l₁ ++ l₂) = runToks (runToks s l₁) l₂ := by
  simp [runToks, List.foldl_append]

theorem runToks_cursorUps : ∀ (j : Nat) (r : Nat) (e : List Nat),
    runToks ⟨r, e⟩ (List.replicate j Tok.cursorUp) = ⟨r - j, e⟩ := by
  intro j
  induction j with
  | zero => intro r e; simp [runToks]
  | succ i ih =>
    intro r e
    rw [List.replicate_succ]
    show runToks (stepTok ⟨r, e⟩ Tok.cursorUp) (List.replicate i Tok.cursorUp) = _
    rw [stepTok]
    rw [ih (r - 1) e]
    congr 1
    omega

theorem eraseChunk_count (n : Nat) : ∀ (cnt k : Nat),
    (((List.range' k cnt).flatMap fun i =>
        [Tok.eraseLine] ++ (if i = n then [] else [Tok.newline])).count
      Tok.eraseLine) = cnt := by
  intro cnt
  induction cnt with
  | zero => intro k; simp
  | succ c ih =>
    intro k
    rw [List.range'_succ]
    simp only [List.flatMap_cons, List.count_append, ih (k + 1)]
    split <;> simp [Nat.add_comm]

theorem eraseChunk_cursorUp_count (n : Nat) : ∀ (cnt k : Nat),
    (((List.range' k cnt).flatMap fun i =>
        [Tok.eraseLine] ++ (if i = n then [] else [Tok.newline])).count
      Tok.cursorUp) = 0 := by
  intro cnt
  induction cnt with
  | zero => intro k; simp
  | succ c ih =>
    intro k
    rw [List.range'_succ]
    simp only [List.flatMap_cons, List.count_append, ih (k + 1)]
    split <;> simp

/-- Running the erase loop of `modify`: starting on row `r`, it erases rows
`r, r+1, …, r+cnt-1` in order and leaves the cursor on the last stale row. -/
theorem eraseChunk_run (n : Nat) : ∀ (cnt : Nat), 1 ≤ cnt → ∀ (k : Nat),
    k + cnt - 1 = n → ∀ (r : Nat) (e : List Nat),
    runToks ⟨r, e⟩ ((List.range' k cnt).flatMap fun i =>
        [Tok.eraseLine] ++ (if i = n then [] else [Tok.newline]))
      = ⟨r + cnt - 1, e ++ List.range' r cnt⟩ := by
  intro cnt
  induction cnt with
  | zero => omega
  | succ c ih =>
    intro _ k hk r e
    rw [List.range'_succ]
    rcases Nat.eq_zero_or_pos c with hc | hc
    · subst hc
      have hkn : k = n := by omega
      simp only [List.range'_succ, List.range'_zero, List.flatMap_cons,
        List.flatMap_nil, List.append_nil, hkn, if_pos rfl]
      show runToks (stepTok ⟨r, e⟩ Tok.eraseLine) [] = _
      simp [runToks, stepTok, List.range'_succ]
    · have hkn : k ≠ n := by omega
      simp only [List.flatMap_cons, if_neg hkn]
      rw [runToks_append]
      show runToks (runToks (stepTok (stepTok ⟨r, e⟩ Tok.eraseLine) Tok.newline) [])
        _ = _
      simp only [stepTok, runToks, List.foldl_nil]
      have := ih hc (k + 1) (by omega) (r + 1) (e ++ [r])
      simp only [runToks] at this
      rw [this]
      have hr : List.range' r (c + 1) = r :: List.range' (r + 1) c := List.range'_succ r c 1
      rw [hr]
      simp

/-- Full behaviour of `modifyCompensation` for a positive number of removed
lines: `n` erase emissions, `n - 1` cursor-up emissions, and — starting from
any row `r` — exactly the `n` rows `r, …, r + n - 1` erased with the cursor
returned to row `r`. -/
theorem modifyCompensation_spec (n : Nat) (hn : 1 ≤ n) :
    ((modifyCompensation (n : Int)).count Tok.eraseLine = n)
    ∧ ((modifyCompensation (n : Int)).count Tok.cursorUp = n - 1)
    ∧ (∀ r : Nat, runToks ⟨r, []⟩ (modifyCompensation (n : Int))
        = ⟨r, List.range' r n⟩) := by
  have htn : (n : Int).toNat = n := by simp
  have htn1 : ((n : Int) - 1).toNat = n - 1 := by omega
  refine ⟨?_, ?_, ?_⟩
  · simp only [modifyCompensation, htn, htn1, List.count_append]
    rw [eraseChunk_count]
    have : (List.replicate (n - 1) Tok.cursorUp).count Tok.eraseLine = 0 := by
      simp [List.count_replicate]
    omega
  · simp only [modifyCompensation, htn, htn1, List.count_append]
    rw [eraseChunk_cursorUp_count]
    simp [List.count_replicate]
  · intro r
    simp only [modifyCompensation, htn, htn1]
    rw [runToks_append]
    rw [eraseChunk_run n n hn 1 (by omega) r []]
    rw [runToks_cursorUps (n - 1) (r + n - 1) ([] ++ List.range' r n)]
    congr 1
    omega

/-! ## Structure of a render pass -/

theorem displayList_eq_lines (cells : CellId → Nat) (tick : Nat) :
    ∀ (l : List CLIDisplayNode),
    (∀ c ∈ l, ∀ d la, c.display d cells tick la
      = (displayLines c d la).flatMap (lineToks cells tick)) →
    ∀ (len i d : Nat),
    CLIDisplayNode.displayList l len i d cells tick
      = (displayLinesList l len i d).flatMap (lineToks cells tick) := by
  intro l
  induction l with
  | nil =>
    intro _ len i d
    rw [CLIDisplayNode.displayList, displayLinesList]
    rfl
  | cons c cs ih =>
    intro hall len i d
    rw [CLIDisplayNode.displayList, displayLinesList]
    rw [List.flatMap_append]
    rw [hall c (by simp) d (i + 1 == len)]
    rw [ih (fun c hc => hall c (by simp [hc])) len (i + 1) d]

/-- A render pass is exactly the concatenation, line by line, of the per-line
emissions: one `RenderLine` per node in pre-order, carrying the depth and the
`last` flag `display` threads to that node. -/
theorem display_eq_lines (cells : CellId → Nat) (tick : Nat) :
    ∀ t : CLIDisplayNode, ∀ (d : Nat) (la : Bool),
    t.display d cells tick la
      = (displayLines t d la).flatMap (lineToks cells tick) := by
  apply tree_ind_mem (fun t => ∀ d la,
    t.display d cells tick la
      = (displayLines t d la).flatMap (lineToks cells tick))
  intro ty subs ih d la
  rw [CLIDisplayNode.display, displayLines]
  rw [List.flatMap_cons]
  rw [displayList_eq_lines cells tick subs
    (fun c hc d2 la2 => ih c hc d2 la2) subs.length 0 (d + 1)]
  rw [lineToks]
  simp

/-- In the emissions of one rendered line at depth `d > 0`, the token at
index `d` (after the erase and the `d - 1` indents) is the branch glyph, and
it is `└╴` or `├╴` according to the `last` flag alone. -/
theorem lineToks_glyph (cells : CellId → Nat) (tick : Nat) (e : RenderLine)
    (hd : e.depth ≠ 0) :
    (lineToks cells tick e).get? e.depth
      = some (Tok.text (if e.last then lastGlyph else midGlyph)) := by
  rw [lineToks, if_pos hd]
  have hpre : ([Tok.eraseLine] ++ (List.replicate (e.depth - 1) (Tok.text "  ")
      ++ [Tok.text (if e.last then lastGlyph else midGlyph)])
      ++ e.node.node_type.displayToks cells tick)
      = ([Tok.eraseLine] ++ List.replicate (e.depth - 1) (Tok.text "  "))
        ++ ([Tok.text (if e.last then lastGlyph else midGlyph)]
            ++ e.node.node_type.displayToks cells tick) := by
    simp
  rw [hpre]
  have hlen : ([Tok.eraseLine]
      ++ List.replicate (e.depth - 1) (Tok.text "  ")).length = e.depth := by
    simp
    omega
  rw [List.get?_append_right (by omega)]
  rw [hlen]
  simp

theorem cellIdsList_subset {c : CLIDisplayNode} {l : List CLIDisplayNode}
    (hc : c ∈ l) : ∀ i ∈ cellIds c, i ∈ cellIdsList l := by
  induction l with
  | nil => cases hc
  | cons e es ih =>
    intro i hi
    rw [cellIdsList]
    rcases List.mem_cons.mp hc with rfl | hmem
    · exact List.mem_append.mpr (Or.inl hi)
    · exact List.mem_append.mpr (Or.inr (ih hmem i hi))

theorem displayToks_cells_congr (nt : CLIDisplayNodeType) (tick : Nat)
    (cells cells' : CellId → Nat)
    (h : ∀ i ∈ nt.cellRefs, cells i = cells' i) :
    nt.displayToks cells tick = nt.displayToks cells' tick := by
  cases nt with
  | Message s => rfl
  | SpinningMessage s => rfl
  | ProgressBar c =>
    have hc : cells c = cells' c := h c (by simp [CLIDisplayNodeType.cellRefs])
    rw [CLIDisplayNodeType.displayToks, CLIDisplayNodeType.displayToks]
    simp only [hc]

theorem displayList_cells_congr (tick : Nat) (cells cells' : CellId → Nat) :
    ∀ (l : List CLIDisplayNode),
    (∀ c ∈ l, ∀ d la, (∀ i ∈ cellIds c, cells i = cells' i) →
      c.display d cells tick la = c.display d cells' tick la) →
    (∀ i ∈ cellIdsList l, cells i = cells' i) →
    ∀ (len idx d : Nat),
    CLIDisplayNode.displayList l len idx d cells tick
      = CLIDisplayNode.displayList l len idx d cells' tick := by
  intro l
  induction l with
  | nil => intro _ _ len idx d; rw [CLIDisplayNode.displayList, CLIDisplayNode.displayList]
  | cons c cs ih =>
    intro hall hagree len idx d
    rw [CLIDisplayNode.displayList, CLIDisplayNode.displayList]
    have h1 : ∀ i ∈ cellIds c, cells i = cells' i := fun i hi =>
      hagree i (cellIdsList_subset (by simp) i hi)
    have h2 : ∀ i ∈ cellIdsList cs, cells i = cells' i := by
      intro i hi
      apply hagree
      rw [cellIdsList]
      exact List.mem_append.mpr (Or.inr hi)
    rw [hall c (by simp) d (idx + 1 == len) h1]
    rw [ih (fun c2 hc2 => hall c2 (by simp [hc2])) h2 len (idx + 1) d]

/-- Rendering reads the shared state only through the frozen cell values the
tree references: two render passes over the same tree with the same tick and
agreeing cell values produce identical emissions. -/
theorem display_cells_congr (tick : Nat) (cells cells' : CellId → Nat) :
    ∀ t : CLIDisplayNode, ∀ (d : Nat) (la : Bool),
    (∀ i ∈ cellIds t, cells i = cells' i) →
    t.display d cells tick la = t.display d cells' tick la := by
  apply tree_ind_mem (fun t => ∀ d la,
    (∀ i ∈ cellIds t, cells i = cells' i) →
    t.display d cells tick la = t.display d cells' tick la)
  intro ty subs ih d la hagree
  rw [CLIDisplayNode.display, CLIDisplayNode.display]
  have hty : ∀ i ∈ ty.cellRefs, cells i = cells' i := by
    intro i hi
    apply hagree
    rw [cellIds]
    exact List.mem_append.mpr (Or.inl hi)
  have hsubs : ∀ i ∈ cellIdsList subs, cells i = cells' i := by
    intro i hi
    apply hagree
    rw [cellIds]
    exact List.mem_append.mpr (Or.inr hi)
  rw [displayToks_cells_congr ty tick cells cells' hty]
  rw [displayList_cells_congr tick cells cells' subs
    (fun c hc d2 la2 hag => ih c hc d2 la2 hag) hsubs subs.length 0 (d + 1)]

theorem displayToks_newline_count (nt : CLIDisplayNodeType)
    (cells : CellId → Nat) (tick : Nat) :
    (nt.displayToks cells tick).count Tok.newline = 1 := by
  cases nt with
  | Message s => rfl
  | SpinningMessage s => rfl
  | ProgressBar c =>
    rw [CLIDisplayNodeType.displayToks]
    have h1 : ∀ (j : Nat) (s : String),
        (List.replicate j (Tok.text s)).count Tok.newline = 0 := by
      intro j s
      simp [List.count_replicate]
    have h2 : ∀ (b : Bool) (s : String),
        (if b = true then [Tok.text s] else ([] : List Tok)).count Tok.newline
          = 0 := by
      intro b s
      cases b <;> simp
    simp only [List.count_append, h1]
    have h3 : (if progressFill (cells c) ≠ 20
        then [Tok.text (String.singleton (spinnerChar tick))]
        else ([] : List Tok)).count Tok.newline = 0 := by
      split <;> simp
    rw [h3]
    simp

theorem displayList_newline_count (cells : CellId → Nat) (tick : Nat) :
    ∀ (l : List CLIDisplayNode),
    (∀ c ∈ l, ∀ d la, (c.display d cells tick la).count Tok.newline = c.size) →
    ∀ (len idx d : Nat),
    (CLIDisplayNode.displayList l len idx d cells tick).count Tok.newline
      = CLIDisplayNode.sizeList l := by
  intro l
  induction l with
  | nil => intro _ len idx d; rw [CLIDisplayNode.displayList]; rfl
  | cons c cs ih =>
    intro hall len idx d
    rw [CLIDisplayNode.displayList]
    rw [List.count_append]
    rw [hall c (by simp) d (idx + 1 == len)]
    rw [ih (fun c2 hc2 => hall c2 (by simp [hc2])) len (idx + 1) d]
    simp

/-- Every node prints exactly one newline, so the newline count of a render
pass is the node count: the tree's visible line count. -/
theorem display_newline_count (cells : CellId → Nat) (tick : Nat) :
    ∀ t : CLIDisplayNode, ∀ (d : Nat) (la : Bool),
    (t.display d cells tick la).count Tok.newline = t.size := by
  apply tree_ind_mem (fun t => ∀ d la,
    (t.display d cells tick la).count Tok.newline = t.size)
  intro ty subs ih d la
  rw [CLIDisplayNode.display]
  simp only [List.count_append]
  rw [displayToks_newline_count]
  rw [displayList_newline_count cells tick subs
    (fun c hc d2 la2 => ih c hc d2 la2) subs.length 0 (d + 1)]
  have hhead : (List.count Tok.newline [Tok.eraseLine]) = 0 := by simp
  have hind : (List.count Tok.newline
      (if d ≠ 0 then List.replicate (d - 1) (Tok.text "  ")
        ++ [Tok.text (if la then lastGlyph else midGlyph)] else [])) = 0 := by
    split <;> simp [List.count_replicate]
  rw [hhead, hind]
  simp [CLIDisplayNode.size_mk]

/-! ## Destructor-output lemmas -/

/-- The instrumented removal loop computes exactly what `popGo` computes and
emits nothing: the removed node goes through `forget`, not `drop`. -/
theorem popGoTr_spec : ∀ t : CLIDisplayNode, ∀ (u : CLIDisplayNode) (tr : List Tok),
    popGoTr t = some (u, tr) → popGo t = some u ∧ tr = [] := by
  apply tree_ind_mem (fun t => ∀ u tr,
    popGoTr t = some (u, tr) → popGo t = some u ∧ tr = [])
  intro ty subs ih u tr h
  rcases hg : (CLIDisplayNode.mk ty subs).sub_nodes.getLast? with _ | l
  · rw [popGoTr_none hg] at h; cases h
  · have h' : subs.getLast? = some l := by simpa using hg
    have hmem : l ∈ subs := mem_of_getLast?_eq h'
    by_cases hl : l.sub_nodes.length = 0
    · rw [popGoTr_some_leaf hg hl] at h
      simp only [forgetTrace, Option.some_inj, Prod.mk.injEq] at h
      obtain ⟨h1, h2⟩ := h
      subst h1
      subst h2
      exact ⟨by rw [popGo_some_leaf hg hl], rfl⟩
    · rw [popGoTr_some_deep hg hl] at h
      rcases hp : popGoTr l with _ | p
      · rw [hp] at h; cases h
      · rw [hp] at h
        simp only [Option.map_some', Option.some_inj, Prod.mk.injEq] at h
        obtain ⟨hu, htr⟩ := h
        obtain ⟨hpl, hep⟩ := ih l hmem p.1 p.2 (by rw [hp])
        refine ⟨?_, by rw [← htr, hep]⟩
        rw [popGo_some_deep hg hl, hpl]
        simp only [Option.map_some']
        simp only [CLIDisplayNode.node_type_mk, CLIDisplayNode.sub_nodes_mk] at hu
        simpa using hu

theorem dropTraceList_spec :
    ∀ (l : List CLIDisplayNode),
    (∀ c ∈ l, (dropTrace c).length = c.size
      ∧ ∀ tok ∈ dropTrace c, tok = Tok.newline) →
    (dropTraceList l).length = CLIDisplayNode.sizeList l
    ∧ ∀ tok ∈ dropTraceList l, tok = Tok.newline := by
  intro l
  induction l with
  | nil =>
    intro _
    rw [dropTraceList]
    exact ⟨rfl, by intro tok h; cases h⟩
  | cons c cs ih =>
    intro hall
    rw [dropTraceList]
    obtain ⟨hlen, hmem⟩ := hall c (by simp)
    obtain ⟨hlen2, hmem2⟩ := ih (fun c2 hc2 => hall c2 (by simp [hc2]))
    constructor
    · simp [hlen, hlen2]
    · intro tok htok
      rcases List.mem_append.mp htok with h1 | h2
      · exact hmem tok h1
      · exact hmem2 tok h2

/-- Dropping a node emits exactly one newline per node of its subtree (its
own `Drop::drop` plus the recursive drop of `sub_nodes`). -/
theorem dropTrace_spec : ∀ t : CLIDisplayNode,
    (dropTrace t).length = t.size
    ∧ ∀ tok ∈ dropTrace t, tok = Tok.newline := by
  apply tree_ind_mem (fun t =>
    (dropTrace t).length = t.size ∧ ∀ tok ∈ dropTrace t, tok = Tok.newline)
  intro ty subs ih
  rw [dropTrace]
  obtain ⟨hlen, hmem⟩ := dropTraceList_spec subs ih
  constructor
  · simp [hlen]
    omega
  · intro tok htok
    rcases List.mem_append.mp htok with h1 | h2
    · simpa using List.mem_singleton.mp (by simpa using h1)
    · exact hmem tok h2

/-! ## Claim theorems -/

/-- C3 counterexample: with the scheduling mutex poisoned and the tree lock
healthy, the `modify` entry point does **not** fail loudly: line 140 binds
the `Result` of `self.mutex.lock()` without `.expect`, so the call proceeds
normally (the guard travels inside the `Err`), contradicting the claim that
every listed operation immediately panics on its poisoned lock. -/
theorem C3_counterexample : modifyLocks true false = some () := rfl

/-- C3 (amended): the render thread's startup lock, every render-loop
iteration, and every mutation-handle operation panic exactly when the lock
they take is poisoned; the `modify` entry point, however, panics only on a
poisoned tree lock and proceeds when the scheduling mutex alone is poisoned,
because line 140 holds the lock `Result` without `.expect`ing it. -/
theorem C3_poisoned_lock_behaviour :
    (∀ mp : Bool, renderThreadStartLock mp = none ↔ mp = true)
    ∧ (∀ rp cp : Bool, renderLoopIterLocks rp cp = none ↔ (rp = true ∨ cp = true))
    ∧ (∀ rp : Bool, mutationOpLock rp = none ↔ rp = true)
    ∧ (∀ mp rp : Bool, modifyLocks mp rp = none ↔ rp = true) := by
  refine ⟨?_, ?_, ?_, ?_⟩ <;> decide

/-- C4: `remove` is a left inverse of `append` and of `descend`: from any
handle state, `make_sub x; pop` and `push x; pop` both return the handle to
exactly its prior state — tree structure and `additions` counter alike. -/
theorem C4_pop_left_inverse (m : CLIModificationElement)
    (x : CLIDisplayNodeType) :
    (m.make_sub x).pop = some m
    ∧ (m.push x).bind CLIModificationElement.pop = some m := by
  refine ⟨pop_make_sub m x, ?_⟩
  obtain ⟨m2, hpush, _, _, _, hpop⟩ := push_spec m x
  rw [hpush]
  simpa using hpop

/-- The tree of the C5 counterexample: a root with a single leaf child. -/
def exC5tree : CLIDisplayNode :=
  .mk (.Message "root") [CLIDisplayNode.new (.Message "a")]

/-- C5 counterexample: on a root with one leaf child "a", append's traversal
("descend to the last child as long as that last child itself has children")
stops at the root, so the claimed rule would add the new node as the root's
second child; `make_sub` instead descends *into* "a" (its loop tests the
current node's children, not the last child's) and nests the new node under
"a".  The two results differ. -/
theorem C5_counterexample :
    descendAtPushStop exC5tree (.Message "b")
      = some (.mk (.Message "root")
          [CLIDisplayNode.new (.Message "a"), CLIDisplayNode.new (.Message "b")])
    ∧ makeSubGo exC5tree (.Message "b")
      = .mk (.Message "root")
          [.mk (.Message "a") [CLIDisplayNode.new (.Message "b")]]
    ∧ some (makeSubGo exC5tree (.Message "b"))
      ≠ descendAtPushStop exC5tree (.Message "b") := by
  have hg : exC5tree.sub_nodes.getLast? = some (CLIDisplayNode.new (.Message "a")) := rfl
  have hleaf : (CLIDisplayNode.new (.Message "a")).sub_nodes.length = 0 := rfl
  have h1 : descendAtPushStop exC5tree (.Message "b")
      = some (.mk (.Message "root")
          [CLIDisplayNode.new (.Message "a"), CLIDisplayNode.new (.Message "b")]) := by
    rw [descendAtPushStop, pushPath_some_leaf hg hleaf, insertChildAt.eq_def]
    rfl
  have h2 : makeSubGo exC5tree (.Message "b")
      = .mk (.Message "root")
          [.mk (.Message "a") [CLIDisplayNode.new (.Message "b")]] := by
    rw [makeSubGo_some hg, makeSubGo_none (by rfl)]
    rfl
  refine ⟨h1, h2, ?_⟩
  rw [h1, h2]
  simp [CLIDisplayNode.new]

/-- C5 (amended): `descend` uses a traversal one level deeper than `append`'s
— it descends to the last child as long as the *current* node has children,
always stopping at the last-most leaf — and appends the new node as a child
of that leaf (which therefore never already has children), thereby opening
one additional nesting level; the `additions` counter increases by one. -/
theorem C5_descend_at_last_leaf (m : CLIModificationElement)
    (x : CLIDisplayNodeType) :
    insertChildAt m.root_node (lastLeafPath m.root_node) x
        = some (m.make_sub x).root_node
    ∧ (∃ d, nodeAt m.root_node (lastLeafPath m.root_node) = some d
        ∧ d.sub_nodes = [])
    ∧ (m.make_sub x).additions = m.additions + 1 := by
  refine ⟨?_, nodeAt_lastLeafPath m.root_node, by
    simp [CLIModificationElement.make_sub]⟩
  simpa [CLIModificationElement.make_sub] using (makeSubGo_spec m.root_node x).1

/-- C6: `append` adds exactly one new leaf as a child of the node reached by
starting at the root and descending to the last child as long as that last
child itself has children (the `pushPath` descent); it never fails, raises
both the visible line count and the `additions` counter by exactly one, and
on a childless root the new node becomes the root's first (only) child. -/
theorem C6_push_spec (m : CLIModificationElement) (x : CLIDisplayNodeType) :
    ∃ m' : CLIModificationElement, m.push x = some m'
      ∧ insertChildAt m.root_node (pushPath m.root_node) x = some m'.root_node
      ∧ m'.root_node.size = m.root_node.size + 1
      ∧ m'.additions = m.additions + 1
      ∧ (m.root_node.sub_nodes = [] →
          m'.root_node.sub_nodes = [CLIDisplayNode.new x]) := by
  obtain ⟨m', h1, h2, h3, h4, _⟩ := push_spec m x
  refine ⟨m', h1, h2, h3, h4, ?_⟩
  intro hnil
  have hgl : m.root_node.sub_nodes.getLast? = none := by rw [hnil]; rfl
  rw [pushPath_none hgl, insertChildAt.eq_def] at h2
  cases hr : m.root_node with
  | mk ty subs =>
    rw [hr] at h2 hnil
    simp only [CLIDisplayNode.sub_nodes_mk] at hnil
    subst hnil
    simp only [Option.some_inj] at h2
    rw [← h2]
    rfl

/-- C6 witness: pushing onto a bare root makes the new node the root's first
child. -/
theorem C6_witness :
    ((CLIModificationElement.mk (.mk (.Message "r") []) 0).push
        (.Message "a")).map (fun m => m.root_node.sub_nodes)
      = some [CLIDisplayNode.new (.Message "a")] := by
  obtain ⟨m', h1, _, _, _, h5⟩ :=
    C6_push_spec (CLIModificationElement.mk (.mk (.Message "r") []) 0) (.Message "a")
  rw [h1]
  simp [h5 rfl]

/-- C7: `pop` on a tree whose root has no children is a complete no-op — the
root is never deleted, the tree (hence its depth and child count) is
unchanged, and the `additions` counter is not decremented. -/
theorem C7_pop_noop_on_bare_root (m : CLIModificationElement)
    (h : m.root_node.sub_nodes = []) : m.pop = some m :=
  pop_noop m h

/-- C7 witness: `pop` on a bare root returns the handle unchanged. -/
theorem C7_witness :
    (CLIModificationElement.mk (.mk (.Message "root") []) 5).pop
      = some (CLIModificationElement.mk (.mk (.Message "root") []) 5) :=
  C7_pop_noop_on_bare_root (CLIModificationElement.mk (.mk (.Message "root") []) 5) rfl

theorem spinnerChar_cases (tick : Nat) :
    spinnerChar tick = '/' ∨ spinnerChar tick = '-'
    ∨ spinnerChar tick = '\\' ∨ spinnerChar tick = '|' := by
  have h4 : tick % 4 = 0 ∨ tick % 4 = 1 ∨ tick % 4 = 2 ∨ tick % 4 = 3 := by omega
  rcases h4 with h | h | h | h <;> simp [spinnerChar, spinnerChars, h]

theorem spinner_str_ne_hash (tick : Nat) :
    String.singleton (spinnerChar tick) ≠ "#" := by
  rcases spinnerChar_cases tick with h | h | h | h <;> rw [h] <;> decide

/-- C8: the rendered fill width of a progress bar is `min 20 (cell / 5)` —
a non-decreasing, saturating function of the cell value; the number of `#`
emissions of the bar is exactly that width; and a full cell (100) renders as
`[`, twenty `#`, `]` with no animated frontier glyph (and no padding). -/
theorem C8_progress_bar_fill :
    (∀ cell : Nat, progressFill cell = min 20 (cell / 5))
    ∧ (∀ c c' : Nat, c ≤ c' → progressFill c ≤ progressFill c')
    ∧ (∀ (cells : CellId → Nat) (id : CellId) (tick : Nat), cells id = 100 →
        (CLIDisplayNodeType.ProgressBar id).displayToks cells tick
          = [Tok.text "["] ++ List.replicate 20 (Tok.text "#")
            ++ [Tok.text "]", Tok.newline])
    ∧ (∀ (cells : CellId → Nat) (id : CellId) (tick : Nat),
        ((CLIDisplayNodeType.ProgressBar id).displayToks cells tick).count
          (Tok.text "#") = progressFill (cells id)) := by
  refine ⟨?_, ?_, ?_, ?_⟩
  · intro cell
    simp only [progressFill, rustClamp]
    split_ifs <;> omega
  · intro c c' h
    simp only [progressFill, rustClamp]
    have : c / 5 ≤ c' / 5 := Nat.div_le_div_right h
    split_ifs <;> omega
  · intro cells id tick h100
    rw [CLIDisplayNodeType.displayToks]
    have hfill : progressFill (cells id) = 20 := by
      rw [h100]; rfl
    simp [hfill]
  · intro cells id tick
    rw [CLIDisplayNodeType.displayToks]
    have hb : progressFill (cells id) ≤ 20 := by
      simp only [progressFill, rustClamp]
      split_ifs <;> omega
    simp only [List.count_append]
    have c1 : (List.count (Tok.text "#") [Tok.text "["]) = 0 := by decide
    have c2 : (List.replicate (progressFill (cells id)) (Tok.text "#")).count
        (Tok.text "#") = progressFill (cells id) := by
      simp [List.count_replicate]
    have c3 : (if progressFill (cells id) ≠ 20
        then [Tok.text (String.singleton (spinnerChar tick))]
        else ([] : List Tok)).count (Tok.text "#") = 0 := by
      split
      · have hbeq : (Tok.text (String.singleton (spinnerChar tick))
            == Tok.text "#") = false := by
          rw [beq_eq_false_iff_ne]
          intro hc
          have hs : String.singleton (spinnerChar tick) = "#" := by
            simpa using hc
          exact spinner_str_ne_hash tick hs
        simp [List.count_singleton', hbeq]
        exact spinner_str_ne_hash tick
      · rfl
    have c4 : (List.replicate (19 - progressFill (cells id)) (Tok.text " ")).count
        (Tok.text "#") = 0 := by
      simp [List.count_replicate]
    have c5 : (List.count (Tok.text "#") [Tok.text "]", Tok.newline]) = 0 := by decide
    rw [c1, c2, c3, c4, c5]
    omega

/-- C8 witness: monotone step and the full-bar rendering at cell value 100. -/
theorem C8_witness :
    progressFill 42 ≤ progressFill 100
    ∧ (CLIDisplayNodeType.ProgressBar 0).displayToks (fun _ => 100) 7
        = [Tok.text "["] ++ List.replicate 20 (Tok.text "#")
          ++ [Tok.text "]", Tok.newline] :=
  ⟨C8_progress_bar_fill.2.1 42 100 (by omega),
   C8_progress_bar_fill.2.2.1 (fun _ => 100) 0 7 rfl⟩

/-- C9: rendering is deterministic: with a frozen tick counter and frozen
progress-cell values, the byte stream of a render pass is a function of the
tree alone — two invocations whose cell assignments agree on every cell the
tree references produce byte-identical terminal output. -/
theorem C9_render_deterministic (t : CLIDisplayNode) (tick : Nat)
    (cells cells' : CellId → Nat)
    (h : ∀ i ∈ cellIds t, cells i = cells' i) :
    toBytes (t.display 0 cells tick true)
      = toBytes (t.display 0 cells' tick true) := by
  rw [display_cells_congr tick cells cells' t 0 true h]

/-- C9 witness: two renders of a one-bar tree under two different cell
assignments that agree on the referenced cell give identical bytes. -/
theorem C9_witness :
    toBytes ((CLIDisplayNode.new (.ProgressBar 0)).display 0 (fun _ => 7) 3 true)
      = toBytes ((CLIDisplayNode.new (.ProgressBar 0)).display 0
          (fun i => if i = 0 then 7 else 9) 3 true) := by
  apply C9_render_deterministic (CLIDisplayNode.new (.ProgressBar 0)) 3
  intro i hi
  simp only [CLIDisplayNode.new, cellIds, cellIdsList,
    CLIDisplayNodeType.cellRefs, List.append_nil, List.mem_singleton] at hi
  simp [hi]

/-- C10: a non-no-op `pop` emits no terminal output at all — the removed node
is `forget`ten, never dropped — while actually dropping a node (as happens
for the whole tree only at manager teardown) emits exactly one newline per
node of its subtree, hence is never silent. -/
theorem C10_pop_silent (t u : CLIDisplayNode) (tr : List Tok)
    (h : popGoTr t = some (u, tr)) :
    tr = []
    ∧ popGo t = some u
    ∧ (∀ v : CLIDisplayNode,
        (dropTrace v).length = v.size ∧ dropTrace v ≠ []) := by
  obtain ⟨hpop, htr⟩ := popGoTr_spec t u tr h
  refine ⟨htr, hpop, ?_⟩
  intro v
  obtain ⟨hlen, _⟩ := dropTrace_spec v
  refine ⟨hlen, ?_⟩
  intro hc
  have := CLIDisplayNode.size_pos v
  rw [hc] at hlen
  simp at hlen
  omega

/-- C10 witness: removing the single leaf of a two-node tree emits nothing,
while dropping that leaf would have emitted a newline. -/
theorem C10_witness :
    popGo (.mk (.Message "r") [CLIDisplayNode.new (.Message "a")])
      = some (.mk (.Message "r") [])
    ∧ dropTrace (CLIDisplayNode.new (.Message "a")) ≠ [] := by
  have heval : popGoTr (.mk (.Message "r") [CLIDisplayNode.new (.Message "a")])
      = some (.mk (.Message "r") [], []) := by
    rw [popGoTr_some_leaf
      (t := .mk (.Message "r") [CLIDisplayNode.new (.Message "a")])
      (l := CLIDisplayNode.new (.Message "a")) rfl rfl]
    rfl
  obtain ⟨htr, hpop, hdrop⟩ := C10_pop_silent _ _ _ heval
  exact ⟨hpop, (hdrop (CLIDisplayNode.new (.Message "a"))).2⟩

/-- The tree of the C2 counterexample: a root with two leaf children. -/
def exC2tree : CLIDisplayNode :=
  .mk (.Message "r")
    [CLIDisplayNode.new (.Message "a"), CLIDisplayNode.new (.Message "b")]

/-- The all-zero frozen cell assignment used by the concrete examples. -/
def zeroCells : CellId → Nat := fun _ => 0

/-- C2 counterexample: in a root with two leaf children, the first child "a"
is a leaf at depth 1, yet the rendered frame contains exactly one mid-branch
and one last-branch glyph (the claim's "every leaf renders with the last
branch glyph" demands two last-branch glyphs), and the per-line reading of
the same render shows the mid-branch glyph on the leaf "a". -/
theorem C2_counterexample :
    ((exC2tree.display 0 zeroCells 0 true).count (Tok.text midGlyph) = 1
      ∧ (exC2tree.display 0 zeroCells 0 true).count (Tok.text lastGlyph) = 1)
    ∧ ¬ (∀ e ∈ displayLines exC2tree 0 true,
          e.node.sub_nodes = [] → e.depth ≠ 0 →
          (lineToks zeroCells 0 e).get? e.depth = some (Tok.text lastGlyph)) := by
  have hdisp : exC2tree.display 0 zeroCells 0 true
      = [Tok.eraseLine, Tok.text "r", Tok.newline,
         Tok.eraseLine, Tok.text midGlyph, Tok.text "a", Tok.newline,
         Tok.eraseLine, Tok.text lastGlyph, Tok.text "b", Tok.newline] := by
    rw [exC2tree]
    simp only [CLIDisplayNode.new, CLIDisplayNode.display,
      CLIDisplayNode.displayList, CLIDisplayNodeType.displayToks]
    simp
  constructor
  · rw [hdisp]
    constructor <;> decide
  · intro hclaim
    have hmem : (⟨1, false, CLIDisplayNode.new (.Message "a")⟩ : RenderLine)
        ∈ displayLines exC2tree 0 true := by
      rw [exC2tree]
      simp only [CLIDisplayNode.new, displayLines, displayLinesList]
      simp [CLIDisplayNode.new]
    have hglyph := hclaim ⟨1, false, CLIDisplayNode.new (.Message "a")⟩ hmem
      rfl (by decide)
    rw [lineToks] at hglyph
    simp [CLIDisplayNode.new, CLIDisplayNodeType.displayToks] at hglyph
    exact absurd hglyph (by decide)

/-- C2 (amended): the branch glyph of a rendered node is determined solely by
its sibling position, not by leaf status: the render pass decomposes into
per-node lines carrying the `last` flag the renderer threads (true exactly
for a parent's final child), and the glyph token of each line at depth > 0 —
sitting at index depth, after the erase and the depth−1 indents — is `└╴`
when that flag is set and `├╴` otherwise, whether or not the node is a leaf. -/
theorem C2_glyph_by_sibling_position :
    (∀ (t : CLIDisplayNode) (d : Nat) (la : Bool) (cells : CellId → Nat)
        (tick : Nat),
      t.display d cells tick la
        = (displayLines t d la).flatMap (lineToks cells tick))
    ∧ (∀ (e : RenderLine) (cells : CellId → Nat) (tick : Nat), e.depth ≠ 0 →
      (lineToks cells tick e).get? e.depth
        = some (Tok.text (if e.last then lastGlyph else midGlyph))) :=
  ⟨fun t d la cells tick => display_eq_lines cells tick t d la,
   fun e cells tick hd => lineToks_glyph cells tick e hd⟩

/-- C2 witness: a non-last line at depth 1 carries the mid-branch glyph at
token index 1. -/
theorem C2_witness :
    (lineToks zeroCells 0 ⟨1, false, CLIDisplayNode.new (.Message "a")⟩).get? 1
      = some (Tok.text midGlyph) := by
  have h := C2_glyph_by_sibling_position.2
    ⟨1, false, CLIDisplayNode.new (.Message "a")⟩ zeroCells 0 (by decide)
  simpa using h

/-- C1: for every mutation batch whose net visible-line change is negative
(`n` more lines removed than added), the counter `modify` computes at
line 149 equals the true shrinkage `n` of the tree's line count, and the
compensation emitted after the synchronous repaint performs exactly `n`
erase-and-reposition cycles: `n` erase emissions (interleaved with the
`n − 1` line feeds and followed by the `n − 1` cursor-ups of lines 159-169)
which, run from the row where the repaint left the cursor — the new frame's
height, whose value the last conjunct pins to the repaint's newline count —
erase precisely the `n` stale rows left over from the taller previous frame
and return the cursor to the first stale row, so no stale line survives. -/
theorem C1_shrinkage_compensation (ops : List MOp)
    (m0 m1 : CLIModificationElement)
    (h0 : m0.additions = 0)
    (happ : applyOps ops m0 = some m1)
    (hshrink : m1.root_node.size < m0.root_node.size) :
    removedLines m1.additions
        = ((m0.root_node.size - m1.root_node.size : Nat) : Int)
    ∧ (modifyCompensation (removedLines m1.additions)).count Tok.eraseLine
        = m0.root_node.size - m1.root_node.size
    ∧ (modifyCompensation (removedLines m1.additions)).count Tok.cursorUp
        = (m0.root_node.size - m1.root_node.size) - 1
    ∧ (∀ r : Nat, runToks ⟨r, []⟩ (modifyCompensation (removedLines m1.additions))
        = ⟨r, List.range' r (m0.root_node.size - m1.root_node.size)⟩)
    ∧ (∀ (cells : CellId → Nat) (tick : Nat),
        (m1.root_node.display 0 cells tick true).count Tok.newline
          = m1.root_node.size) := by
  have hdelta := applyOps_delta ops m0 m1 happ
  rw [h0] at hdelta
  have hge : 1 ≤ m0.root_node.size - m1.root_node.size := by omega
  have hrem : removedLines m1.additions
      = ((m0.root_node.size - m1.root_node.size : Nat) : Int) := by
    rw [removedLines]
    have hneg : -m1.additions
        = ((m0.root_node.size - m1.root_node.size : Nat) : Int) := by
      omega
    rw [hneg]
    exact max_eq_left (Int.natCast_nonneg _)
  obtain ⟨hc1, hc2, hc3⟩ :=
    modifyCompensation_spec (m0.root_node.size - m1.root_node.size) hge
  refine ⟨hrem, ?_, ?_, ?_,
    fun cells tick => display_newline_count cells tick m1.root_node 0 true⟩
  · rw [hrem]; exact hc1
  · rw [hrem]; exact hc2
  · intro r; rw [hrem]; exact hc3 r

/-- C1 witness: the spec scenario — three previously appended leaves, two
removed in one mutation call — leaves `additions = -2`; the compensation has
exactly two erase emissions, and run from row 2 (the two-line new frame's
height) it erases exactly rows 2 and 3 and returns the cursor to row 2. -/
theorem C1_witness :
    (modifyCompensation (removedLines (-2))).count Tok.eraseLine = 2
    ∧ runToks ⟨2, []⟩ (modifyCompensation (removedLines (-2))) = ⟨2, [2, 3]⟩ := by
  have hpg1 : popGo (.mk (.Message "r") [CLIDisplayNode.new (.Message "a"),
      CLIDisplayNode.new (.Message "b"), CLIDisplayNode.new (.Message "c")])
      = some (.mk (.Message "r") [CLIDisplayNode.new (.Message "a"),
          CLIDisplayNode.new (.Message "b")]) := by
    rw [popGo_some_leaf
      (t := .mk (.Message "r") [CLIDisplayNode.new (.Message "a"),
        CLIDisplayNode.new (.Message "b"), CLIDisplayNode.new (.Message "c")])
      (l := CLIDisplayNode.new (.Message "c")) rfl rfl]
    rfl
  have hpg2 : popGo (.mk (.Message "r") [CLIDisplayNode.new (.Message "a"),
      CLIDisplayNode.new (.Message "b")])
      = some (.mk (.Message "r") [CLIDisplayNode.new (.Message "a")]) := by
    rw [popGo_some_leaf
      (t := .mk (.Message "r") [CLIDisplayNode.new (.Message "a"),
        CLIDisplayNode.new (.Message "b")])
      (l := CLIDisplayNode.new (.Message "b")) rfl rfl]
    rfl
  have e1 : (⟨.mk (.Message "r") [CLIDisplayNode.new (.Message "a"),
      CLIDisplayNode.new (.Message "b"), CLIDisplayNode.new (.Message "c")], 0⟩
        : CLIModificationElement).pop
      = some ⟨.mk (.Message "r") [CLIDisplayNode.new (.Message "a"),
          CLIDisplayNode.new (.Message "b")], -1⟩ := by
    simp [CLIModificationElement.pop, hpg1]
  have e2 : (⟨.mk (.Message "r") [CLIDisplayNode.new (.Message "a"),
      CLIDisplayNode.new (.Message "b")], (-1 : Int)⟩
        : CLIModificationElement).pop
      = some ⟨.mk (.Message "r") [CLIDisplayNode.new (.Message "a")], -2⟩ := by
    simp [CLIModificationElement.pop, hpg2]
  have happ : applyOps [MOp.pop, MOp.pop]
      ⟨.mk (.Message "r") [CLIDisplayNode.new (.Message "a"),
        CLIDisplayNode.new (.Message "b"), CLIDisplayNode.new (.Message "c")], 0⟩
      = some ⟨.mk (.Message "r") [CLIDisplayNode.new (.Message "a")], -2⟩ := by
    simp [applyOps, List.foldlM, applyOp, e1, e2]
  have h := C1_shrinkage_compensation [MOp.pop, MOp.pop]
    ⟨.mk (.Message "r") [CLIDisplayNode.new (.Message "a"),
      CLIDisplayNode.new (.Message "b"), CLIDisplayNode.new (.Message "c")], 0⟩
    ⟨.mk (.Message "r") [CLIDisplayNode.new (.Message "a")], -2⟩
    rfl happ (by simp [CLIDisplayNode.new])
  obtain ⟨_, h2, _, h4, _⟩ := h
  constructor
  · simpa [CLIDisplayNode.new] using h2
  · have := h4 2
    simp only [CLIDisplayNode.new] at this
    simpa [List.range'] using this

end CliProgress
